import Mathlib

/-!
Verification of the e3nn-jax snapshot: the `_instructions_uvu` instruction generator
and the `Transformer` layer of `e3nn_jax/experimental/transformer.py`, and the two
Tetris example scripts (`examples/tetris_point_jraph.py`, `examples/tetris_voxel.py`).

The repository files only consume the e3nn irreps engine (`Irreps`, `Irrep.__mul__`,
`Irreps.sort`, `index_add`, `scatter_sum` are library code not present in the
snapshot); those library operations are modelled from the specification's data-model
section and glossary, each marked `Modelled from the spec:` in its doc comment.
Everything else is translated directly from the Python source.
-/

/-- Irreducible representation label: degree `l` and parity `p` (`1` even, `-1` odd). -/
structure Irrep where
  l : Nat
  p : Int
deriving DecidableEq, Repr

/-- Dimension of an irrep, `2*l+1`. -/
def Irrep.dim (ir : Irrep) : Nat := 2 * ir.l + 1

/-- Modelled from the spec: the product `ir_in1 * ir_in2` of two irreps (the e3nn
library `Irrep.__mul__` is not in the snapshot).  Per the glossary the tensor product
is "governed by selection rules": the product contains one irrep of each degree `l`
from `|l1 - l2|` to `l1 + l2`, with parity `p1 * p2`. -/
def Irrep.prod (a b : Irrep) : List Irrep :=
  (List.range' (max a.l b.l - min a.l b.l) (2 * min a.l b.l + 1)).map
    (fun l => ⟨l, a.p * b.p⟩)

/-- One block of an irreps list: a multiplicity paired with an irrep. -/
abbrev MulIrrep := Nat × Irrep

/-- Irreps-tagged block list: the (multiplicity, irrep) labels of the blocks. -/
abbrev Irreps := List MulIrrep

/-- Modelled from the spec: total trailing dimension of an irreps-tagged array,
"the sum over blocks of multiplicity × (2×degree+1)". -/
def Irreps.dim (I : Irreps) : Nat := (I.map (fun mi => mi.1 * mi.2.dim)).sum

/-- Spec sort key on irreps, "(degree, parity)", as a lexicographic order. -/
def irrepKeyLe (a b : Irrep) : Prop :=
  a.l < b.l ∨ (a.l = b.l ∧ a.p ≤ b.p)

/-- Total order used on decorated blocks `((mul, ir), original index)`: the spec's
sort key (degree, parity) with the original position as tiebreaker, mirroring the
decorate-sort-undecorate of the library's `Irreps.sort`. -/
def decoratedLe (x y : MulIrrep × Nat) : Prop :=
  x.1.2.l < y.1.2.l ∨
    (x.1.2.l = y.1.2.l ∧ (x.1.2.p < y.1.2.p ∨ (x.1.2.p = y.1.2.p ∧ x.2 ≤ y.2)))

instance : DecidableRel decoratedLe := fun x y => by
  unfold decoratedLe
  infer_instance

instance : IsTotal (MulIrrep × Nat) decoratedLe where
  total x y := by
    unfold decoratedLe
    omega

instance : IsTrans (MulIrrep × Nat) decoratedLe where
  trans x y z := by
    unfold decoratedLe
    omega

/-- Blocks decorated with their original index. -/
def decorate (I : Irreps) : List (MulIrrep × Nat) :=
  I.enum.map (fun ia => (ia.2, ia.1))

/-- Modelled from the spec: `Irreps.sort` of the e3nn library (not in the snapshot).
Blocks are sorted by the key "(degree, parity)" chosen once at construction; the
returned map `p` sends each original block index to the position of that block in the
sorted list, which is how `_instructions_uvu` rewrites instruction output indices. -/
def sortIrreps (I : Irreps) : Irreps × (Nat → Nat) :=
  let s := List.insertionSort decoratedLe (decorate I)
  (s.map (fun t => t.1), fun i => s.findIdx (fun t => t.2 == i))

/-- Tensor-product instruction `(i_1, i_2, i_out, mode, has_weight)`. -/
structure Instruction where
  i1 : Nat
  i2 : Nat
  iOut : Nat
  mode : String
  hasWeight : Bool
deriving DecidableEq, Repr

/-- Loop body of `_instructions_uvu` before the assert and the sort: for each block
`i1` of `irreps_in1`, each block `i2` of `irreps_in2`, and each irrep of their
product lying in `ir_out_list`, record `(i1, i2, (mul, ir_out))` with `mul` the
multiplicity of block `i1`.  Appending in loop order is flattening in this order,
and `k = len(irreps_out)` at append time is the position in this flat list. -/
def rawUvuBlocks (I1 I2 : Irreps) (irOutList : List Irrep) : List (Nat × Nat × MulIrrep) :=
  I1.enum.flatMap (fun p1 =>
    I2.enum.flatMap (fun p2 =>
      ((Irrep.prod p1.2.2 p2.2.2).filter (fun ir => decide (ir ∈ irOutList))).map
        (fun ir => (p1.1, p2.1, (p1.2.1, ir)))))

/-- Output irreps accumulated by the `_instructions_uvu` loop, before sorting. -/
def rawIrrepsOut (I1 I2 : Irreps) (irOutList : List Irrep) : Irreps :=
  (rawUvuBlocks I1 I2 irOutList).map (fun t => t.2.2)

/-- Instructions accumulated by the `_instructions_uvu` loop, before output-index
rewriting: the k-th recorded triple yields `(i1, i2, k, 'uvu', True)`. -/
def rawInstructions (I1 I2 : Irreps) (irOutList : List Irrep) : List Instruction :=
  (rawUvuBlocks I1 I2 irOutList).enum.map (fun kt => ⟨kt.2.1, kt.2.2.1, kt.1, "uvu", true⟩)

/-- Embedding of `_instructions_uvu`: `none` models the `AssertionError` raised when
`irreps_out.dim == 0`; otherwise the blocks are sorted and every instruction's output
index is rewritten through the sort permutation `p`. -/
def instructionsUvu (I1 I2 : Irreps) (irOutList : List Irrep) :
    Option (Irreps × List Instruction) :=
  let irrepsOut := rawIrrepsOut I1 I2 irOutList
  if Irreps.dim irrepsOut > 0 then
    let sp := sortIrreps irrepsOut
    some (sp.1, (rawInstructions I1 I2 irOutList).map
      (fun ins => ⟨ins.i1, ins.i2, sp.2 ins.iOut, ins.mode, ins.hasWeight⟩))
  else
    none

/-- Undecorating the decorated list gives back the original block list. -/
theorem decorate_map_fst (I : Irreps) : (decorate I).map (fun t => t.1) = I := by
  simp [decorate, List.map_map, Function.comp]
  exact List.enum_map_snd I

/-- The decoration indices are exactly `0, 1, ..., length - 1`. -/
theorem decorate_map_snd (I : Irreps) :
    (decorate I).map (fun t => t.2) = List.range I.length := by
  simp [decorate, List.map_map, Function.comp]
  exact List.enum_map_fst I

/-- An element at a valid position belongs to the enumerated list with its index. -/
theorem mem_enum_of_getElem {α : Type} (l : List α) (i : Nat) (a : α)
    (h : l[i]? = some a) : (i, a) ∈ l.enum := by
  have hi : i < l.length := by
    by_contra hlt
    rw [List.getElem?_eq_none (by omega)] at h
    exact Option.noConfusion h
  have hv : l[i] = a := by
    have := List.getElem?_eq_getElem hi
    rw [this] at h
    exact Option.some.inj h
  have hiE : i < l.enum.length := by simpa [List.enum_length] using hi
  have hmem : l.enum[i] ∈ l.enum := List.getElem_mem hiE
  rw [List.getElem_enum, hv] at hmem
  exact hmem

/-- A block together with its index belongs to the decorated list. -/
theorem mem_decorate (I : Irreps) (i : Nat) (mi : MulIrrep) (h : I[i]? = some mi) :
    (mi, i) ∈ decorate I := by
  have henum : (i, mi) ∈ I.enum := mem_enum_of_getElem I i mi h
  have : ((i, mi).2, (i, mi).1) ∈ (decorate I) := List.mem_map_of_mem _ henum
  simpa using this

/-- The sorted decorated list is a permutation of the decorated list. -/
theorem sorted_perm_decorate (I : Irreps) :
    (List.insertionSort decoratedLe (decorate I)).Perm (decorate I) :=
  List.perm_insertionSort decoratedLe (decorate I)

/-- The decoration indices of the sorted decorated list have no duplicate. -/
theorem sorted_idx_nodup (I : Irreps) :
    ((List.insertionSort decoratedLe (decorate I)).map (fun t => t.2)).Nodup := by
  have hperm := (sorted_perm_decorate I).map (fun t : MulIrrep × Nat => t.2)
  have : ((decorate I).map (fun t => t.2)).Nodup := by
    rw [decorate_map_snd]
    exact List.nodup_range I.length
  exact hperm.symm.nodup this

/-- Round trip of the sort permutation: the block at position `p i` of the sorted
irreps list is the block at position `i` of the unsorted list. -/
theorem sortIrreps_apply (I : Irreps) (i : Nat) (mi : MulIrrep) (h : I[i]? = some mi) :
    ((sortIrreps I).1)[(sortIrreps I).2 i]? = some mi := by
  have hdec : (mi, i) ∈ decorate I := mem_decorate I i mi h
  have hmem : (mi, i) ∈ List.insertionSort decoratedLe (decorate I) :=
    (sorted_perm_decorate I).mem_iff.mpr hdec
  have hex : ∃ x ∈ List.insertionSort decoratedLe (decorate I),
      (fun t : MulIrrep × Nat => t.2 == i) x = true := ⟨(mi, i), hmem, by simp⟩
  have hj : (List.insertionSort decoratedLe (decorate I)).findIdx
      (fun t => t.2 == i) < (List.insertionSort decoratedLe (decorate I)).length :=
    List.findIdx_lt_length_of_exists hex
  have hpj := @List.findIdx_getElem _ (fun t : MulIrrep × Nat => t.2 == i)
    (List.insertionSort decoratedLe (decorate I)) hj
  have heq : (List.insertionSort decoratedLe (decorate I))[(List.insertionSort
      decoratedLe (decorate I)).findIdx (fun t => t.2 == i)] = (mi, i) := by
    refine List.inj_on_of_nodup_map (sorted_idx_nodup I) (List.getElem_mem hj) hmem ?_
    simpa using hpj
  show ((List.insertionSort decoratedLe (decorate I)).map (fun t => t.1))[(List.insertionSort
      decoratedLe (decorate I)).findIdx (fun t => t.2 == i)]? = some mi
  rw [List.getElem?_map, List.getElem?_eq_getElem hj, heq]
  rfl

/-- Length of the sorted irreps list. -/
theorem sortIrreps_length (I : Irreps) : (sortIrreps I).1.length = I.length := by
  show ((List.insertionSort decoratedLe (decorate I)).map (fun t => t.1)).length = I.length
  rw [List.length_map, List.length_insertionSort]
  simp [decorate, List.enum_length]

/-- The sorted irreps list is a permutation (as blocks) of the unsorted one. -/
theorem sortIrreps_perm (I : Irreps) : (sortIrreps I).1.Perm I := by
  show ((List.insertionSort decoratedLe (decorate I)).map (fun t => t.1)).Perm I
  have := (sorted_perm_decorate I).map (fun t : MulIrrep × Nat => t.1)
  rwa [decorate_map_fst] at this

/-- Sorting preserves the total dimension. -/
theorem sortIrreps_dim (I : Irreps) : Irreps.dim (sortIrreps I).1 = Irreps.dim I := by
  unfold Irreps.dim
  exact ((sortIrreps_perm I).map (fun mi => mi.1 * mi.2.dim)).sum_eq

/-- The sorted irreps list is sorted for the spec's key (degree, parity). -/
theorem sortIrreps_sorted (I : Irreps) :
    List.Pairwise (fun a b : MulIrrep => irrepKeyLe a.2 b.2) (sortIrreps I).1 := by
  have hs : List.Sorted decoratedLe (List.insertionSort decoratedLe (decorate I)) :=
    List.sorted_insertionSort decoratedLe (decorate I)
  exact List.Pairwise.map _ (fun a b hab => by
    unfold decoratedLe at hab
    unfold irrepKeyLe
    omega) hs

/-- Every recorded triple refers to an existing `irreps_in1` block and copies its
multiplicity into the output block it creates. -/
theorem rawUvuBlocks_mul (I1 I2 : Irreps) (outs : List Irrep) (t : Nat × Nat × MulIrrep)
    (ht : t ∈ rawUvuBlocks I1 I2 outs) :
    ∃ bIn, I1[t.1]? = some bIn ∧ t.2.2.1 = bIn.1 := by
  unfold rawUvuBlocks at ht
  obtain ⟨p1, hp1, ht⟩ := List.mem_flatMap.mp ht
  obtain ⟨p2, hp2, ht⟩ := List.mem_flatMap.mp ht
  obtain ⟨ir, hir, rfl⟩ := List.mem_map.mp ht
  have h1 : p1.1 < I1.length := List.fst_lt_of_mem_enum hp1
  have h2 : p1.2 = I1[p1.1] := List.snd_eq_of_mem_enum hp1
  exact ⟨p1.2, by rw [List.getElem?_eq_getElem h1, ← h2], rfl⟩

/-- The instruction recorded at position `k` targets output position `k` and copies
the input block indices of the k-th recorded triple. -/
theorem rawInstructions_getElem (I1 I2 : Irreps) (outs : List Irrep) (k : Nat)
    (t : Nat × Nat × MulIrrep) (hk : (rawUvuBlocks I1 I2 outs)[k]? = some t) :
    (rawInstructions I1 I2 outs)[k]? = some ⟨t.1, t.2.1, k, "uvu", true⟩ := by
  unfold rawInstructions
  rw [List.getElem?_map, List.getElem?_enum, hk]
  rfl

/-- Any instruction recorded by the loop arises from a recorded triple at its own
output position. -/
theorem rawInstructions_mem (I1 I2 : Irreps) (outs : List Irrep) (ins : Instruction)
    (h : ins ∈ rawInstructions I1 I2 outs) :
    ∃ k t, (rawUvuBlocks I1 I2 outs)[k]? = some t ∧
      ins = ⟨t.1, t.2.1, k, "uvu", true⟩ := by
  unfold rawInstructions at h
  obtain ⟨kt, hkt, rfl⟩ := List.mem_map.mp h
  have h1 : kt.1 < (rawUvuBlocks I1 I2 outs).length := List.fst_lt_of_mem_enum hkt
  have h2 : kt.2 = (rawUvuBlocks I1 I2 outs)[kt.1] := List.snd_eq_of_mem_enum hkt
  exact ⟨kt.1, kt.2, by rw [List.getElem?_eq_getElem h1, ← h2], rfl⟩

/-- The unsorted output block at position `k` is the block of the k-th triple. -/
theorem rawIrrepsOut_getElem (I1 I2 : Irreps) (outs : List Irrep) (k : Nat)
    (t : Nat × Nat × MulIrrep) (hk : (rawUvuBlocks I1 I2 outs)[k]? = some t) :
    (rawIrrepsOut I1 I2 outs)[k]? = some t.2.2 := by
  unfold rawIrrepsOut
  rw [List.getElem?_map, hk]
  rfl

/-- Successful runs of `_instructions_uvu` are the sorted blocks with the rewritten
instructions, and can only happen when the unsorted output dimension is positive. -/
theorem instructionsUvu_some (I1 I2 : Irreps) (outs : List Irrep) (O : Irreps)
    (instrs : List Instruction) (h : instructionsUvu I1 I2 outs = some (O, instrs)) :
    O = (sortIrreps (rawIrrepsOut I1 I2 outs)).1 ∧
    instrs = (rawInstructions I1 I2 outs).map (fun ins =>
      ⟨ins.i1, ins.i2, (sortIrreps (rawIrrepsOut I1 I2 outs)).2 ins.iOut,
        ins.mode, ins.hasWeight⟩) ∧
    Irreps.dim (rawIrrepsOut I1 I2 outs) > 0 := by
  simp only [instructionsUvu] at h
  by_cases hd : Irreps.dim (rawIrrepsOut I1 I2 outs) > 0
  · rw [if_pos hd] at h
    have h2 := Option.some.inj h
    exact ⟨(congrArg Prod.fst h2).symm, (congrArg Prod.snd h2).symm, hd⟩
  · rw [if_neg hd] at h
    exact absurd h (by simp)

/-- C1: every instruction returned by `_instructions_uvu` has mode `'uvu'` and
`has_weight True`, the multiplicity of the output block it targets equals the
multiplicity of the `irreps_in1` block it references, and the number of instructions
equals the number of output blocks. -/
theorem uvu_instructions_shape (I1 I2 : Irreps) (outs : List Irrep) (O : Irreps)
    (instrs : List Instruction) (h : instructionsUvu I1 I2 outs = some (O, instrs)) :
    instrs.length = O.length ∧
    ∀ ins ∈ instrs, ins.mode = "uvu" ∧ ins.hasWeight = true ∧
      ∃ bOut bIn, O[ins.iOut]? = some bOut ∧ I1[ins.i1]? = some bIn ∧ bOut.1 = bIn.1 := by
  obtain ⟨hO, hins, hd⟩ := instructionsUvu_some I1 I2 outs O instrs h
  constructor
  · rw [hO, hins, List.length_map, sortIrreps_length]
    unfold rawInstructions rawIrrepsOut
    rw [List.length_map, List.length_map, List.enum_length]
  · intro ins hmem
    rw [hins] at hmem
    obtain ⟨rawIns, hraw, rfl⟩ := List.mem_map.mp hmem
    obtain ⟨k, t, hkt, rfl⟩ := rawInstructions_mem I1 I2 outs rawIns hraw
    refine ⟨rfl, rfl, ?_⟩
    have hblk := rawIrrepsOut_getElem I1 I2 outs k t hkt
    have hOk := sortIrreps_apply (rawIrrepsOut I1 I2 outs) k t.2.2 hblk
    have hmem_t : t ∈ rawUvuBlocks I1 I2 outs := List.getElem?_mem hkt
    obtain ⟨bIn, hbIn, hmul⟩ := rawUvuBlocks_mul I1 I2 outs t hmem_t
    exact ⟨t.2.2, bIn, by rw [hO]; exact hOk, hbIn, hmul⟩

/-- Witness for C1 at a concrete input: two multiplicity-2 scalar blocks couple into
one output block that keeps multiplicity 2. -/
theorem uvu_instructions_shape_witness :
    instructionsUvu [(2, ⟨0, 1⟩)] [(1, ⟨0, 1⟩)] [⟨0, 1⟩] =
      some ([(2, ⟨0, 1⟩)], [⟨0, 0, 0, "uvu", true⟩]) ∧
    (([⟨0, 0, 0, "uvu", true⟩] : List Instruction).length =
      ([(2, ⟨0, 1⟩)] : Irreps).length ∧
    ∀ ins ∈ ([⟨0, 0, 0, "uvu", true⟩] : List Instruction),
      ins.mode = "uvu" ∧ ins.hasWeight = true ∧
      ∃ bOut bIn, ([(2, ⟨0, 1⟩)] : Irreps)[ins.iOut]? = some bOut ∧
        ([(2, ⟨0, 1⟩)] : Irreps)[ins.i1]? = some bIn ∧ bOut.1 = bIn.1) :=
  ⟨by decide, uvu_instructions_shape [(2, ⟨0, 1⟩)] [(1, ⟨0, 1⟩)] [⟨0, 1⟩]
    [(2, ⟨0, 1⟩)] [⟨0, 0, 0, "uvu", true⟩] (by decide)⟩

/-- C2: on success, the returned `irreps_out` is sorted by the construction-time key
(degree, parity), and rewriting every instruction's output index through the sort
permutation `p` is a round trip: the instruction at each position keeps its input
indices, mode and weight flag, and its new output index designates in the sorted
list exactly the (multiplicity, irrep) block its old output index designated in the
unsorted list. -/
theorem uvu_sort_roundtrip (I1 I2 : Irreps) (outs : List Irrep) (O : Irreps)
    (instrs : List Instruction) (h : instructionsUvu I1 I2 outs = some (O, instrs)) :
    List.Pairwise (fun a b : MulIrrep => irrepKeyLe a.2 b.2) O ∧
    instrs.length = (rawInstructions I1 I2 outs).length ∧
    ∀ (j : Nat) (rawIns : Instruction),
      (rawInstructions I1 I2 outs)[j]? = some rawIns →
      ∃ ins : Instruction, instrs[j]? = some ins ∧ ins.i1 = rawIns.i1 ∧ ins.i2 = rawIns.i2 ∧
        ins.mode = rawIns.mode ∧ ins.hasWeight = rawIns.hasWeight ∧
        O[ins.iOut]? = (rawIrrepsOut I1 I2 outs)[rawIns.iOut]? := by
  obtain ⟨hO, hins, hd⟩ := instructionsUvu_some I1 I2 outs O instrs h
  refine ⟨hO ▸ sortIrreps_sorted (rawIrrepsOut I1 I2 outs), ?_, ?_⟩
  · rw [hins, List.length_map]
  · intro j rawIns hj
    have hblk : ∃ t, (rawUvuBlocks I1 I2 outs)[j]? = some t ∧
        rawIns = ⟨t.1, t.2.1, j, "uvu", true⟩ := by
      unfold rawInstructions at hj
      rw [List.getElem?_map, List.getElem?_enum] at hj
      cases hb : (rawUvuBlocks I1 I2 outs)[j]? with
      | none => rw [hb] at hj; exact absurd hj (by simp)
      | some t =>
        rw [hb] at hj
        simp only [Option.map_some'] at hj
        exact ⟨t, rfl, (Option.some.inj hj).symm⟩
    obtain ⟨t, hb, rfl⟩ := hblk
    refine ⟨⟨t.1, t.2.1, (sortIrreps (rawIrrepsOut I1 I2 outs)).2 j, "uvu", true⟩,
      ?_, rfl, rfl, rfl, rfl, ?_⟩
    · rw [hins, List.getElem?_map, hj]
      rfl
    · have hraw := rawIrrepsOut_getElem I1 I2 outs j t hb
      have hOk := sortIrreps_apply (rawIrrepsOut I1 I2 outs) j t.2.2 hraw
      show O[(sortIrreps (rawIrrepsOut I1 I2 outs)).2 j]? = _
      rw [hO, hOk, hraw]

/-- Witness for C2 at a concrete input whose blocks are generated out of order: the
degree-1 block is generated first, sorting swaps the two blocks and the instructions'
output indices are rewritten accordingly. -/
theorem uvu_sort_roundtrip_witness :
    instructionsUvu [(1, ⟨1, 1⟩), (2, ⟨0, 1⟩)] [(1, ⟨0, 1⟩)] [⟨0, 1⟩, ⟨1, 1⟩] =
      some ([(2, ⟨0, 1⟩), (1, ⟨1, 1⟩)],
        [⟨0, 0, 1, "uvu", true⟩, ⟨1, 0, 0, "uvu", true⟩]) ∧
    (List.Pairwise (fun a b : MulIrrep => irrepKeyLe a.2 b.2)
      [(2, ⟨0, 1⟩), (1, ⟨1, 1⟩)] ∧
    ([⟨0, 0, 1, "uvu", true⟩, ⟨1, 0, 0, "uvu", true⟩] : List Instruction).length =
      (rawInstructions [(1, ⟨1, 1⟩), (2, ⟨0, 1⟩)] [(1, ⟨0, 1⟩)] [⟨0, 1⟩, ⟨1, 1⟩]).length ∧
    ∀ (j : Nat) (rawIns : Instruction),
      (rawInstructions [(1, ⟨1, 1⟩), (2, ⟨0, 1⟩)] [(1, ⟨0, 1⟩)] [⟨0, 1⟩, ⟨1, 1⟩])[j]? =
        some rawIns →
      ∃ ins : Instruction, ([⟨0, 0, 1, "uvu", true⟩, ⟨1, 0, 0, "uvu", true⟩] :
          List Instruction)[j]? = some ins ∧
        ins.i1 = rawIns.i1 ∧ ins.i2 = rawIns.i2 ∧
        ins.mode = rawIns.mode ∧ ins.hasWeight = rawIns.hasWeight ∧
        ([(2, ⟨0, 1⟩), (1, ⟨1, 1⟩)] : Irreps)[ins.iOut]? =
          (rawIrrepsOut [(1, ⟨1, 1⟩), (2, ⟨0, 1⟩)] [(1, ⟨0, 1⟩)]
            [⟨0, 1⟩, ⟨1, 1⟩])[rawIns.iOut]?) :=
  ⟨by decide, uvu_sort_roundtrip [(1, ⟨1, 1⟩), (2, ⟨0, 1⟩)] [(1, ⟨0, 1⟩)]
    [⟨0, 1⟩, ⟨1, 1⟩] [(2, ⟨0, 1⟩), (1, ⟨1, 1⟩)]
    [⟨0, 0, 1, "uvu", true⟩, ⟨1, 0, 0, "uvu", true⟩] (by decide)⟩

/-- Equivalence between a recorded triple with positive multiplicity and a matching
pair of input blocks whose product hits `ir_out_list`, the first one with positive
multiplicity. -/
theorem exists_pos_raw_iff (I1 I2 : Irreps) (outs : List Irrep) :
    (∃ t ∈ rawUvuBlocks I1 I2 outs, 0 < t.2.2.1) ↔
    (∃ mi1 ∈ I1, ∃ mi2 ∈ I2, ∃ ir ∈ Irrep.prod mi1.2 mi2.2,
      ir ∈ outs ∧ 0 < mi1.1) := by
  constructor
  · rintro ⟨t, ht, hpos⟩
    unfold rawUvuBlocks at ht
    obtain ⟨p1, hp1, ht⟩ := List.mem_flatMap.mp ht
    obtain ⟨p2, hp2, ht⟩ := List.mem_flatMap.mp ht
    obtain ⟨ir, hir, rfl⟩ := List.mem_map.mp ht
    obtain ⟨hirP, hirO⟩ := List.mem_filter.mp hir
    have hm1 : p1.2 ∈ I1 := by
      rw [List.snd_eq_of_mem_enum hp1]
      exact List.getElem_mem (List.fst_lt_of_mem_enum hp1)
    have hm2 : p2.2 ∈ I2 := by
      rw [List.snd_eq_of_mem_enum hp2]
      exact List.getElem_mem (List.fst_lt_of_mem_enum hp2)
    exact ⟨p1.2, hm1, p2.2, hm2, ir, hirP, by simpa using hirO, by simpa using hpos⟩
  · rintro ⟨mi1, hm1, mi2, hm2, ir, hirP, hirO, hpos⟩
    obtain ⟨i1, hl1, hv1⟩ := List.mem_iff_getElem.mp hm1
    obtain ⟨i2, hl2, hv2⟩ := List.mem_iff_getElem.mp hm2
    refine ⟨(i1, i2, (mi1.1, ir)), ?_, hpos⟩
    unfold rawUvuBlocks
    apply List.mem_flatMap.mpr
    refine ⟨(i1, mi1), mem_enum_of_getElem I1 i1 mi1
      (by rw [List.getElem?_eq_getElem hl1, hv1]), ?_⟩
    apply List.mem_flatMap.mpr
    refine ⟨(i2, mi2), mem_enum_of_getElem I2 i2 mi2
      (by rw [List.getElem?_eq_getElem hl2, hv2]), ?_⟩
    apply List.mem_map.mpr
    exact ⟨ir, List.mem_filter.mpr ⟨hirP, by simpa using hirO⟩, rfl⟩

/-- Dimension zero of the loop output happens exactly when no positive-multiplicity
block of `irreps_in1` produces, with some block of `irreps_in2`, an irrep lying in
`ir_out_list`. -/
theorem rawIrrepsOut_dim_zero_iff (I1 I2 : Irreps) (outs : List Irrep) :
    Irreps.dim (rawIrrepsOut I1 I2 outs) = 0 ↔
    ¬∃ mi1 ∈ I1, ∃ mi2 ∈ I2, ∃ ir ∈ Irrep.prod mi1.2 mi2.2,
      ir ∈ outs ∧ 0 < mi1.1 := by
  rw [← exists_pos_raw_iff I1 I2 outs]
  unfold Irreps.dim rawIrrepsOut
  rw [List.sum_eq_zero_iff]
  constructor
  · rintro hall ⟨t, ht, hpos⟩
    have := hall (t.2.2.1 * t.2.2.2.dim) (by
      rw [List.map_map]
      exact List.mem_map_of_mem _ ht)
    have hd : 0 < t.2.2.2.dim := by unfold Irrep.dim; omega
    exact absurd this (by positivity)
  · intro hno x hx
    rw [List.map_map] at hx
    obtain ⟨t, ht, rfl⟩ := List.mem_map.mp hx
    by_contra hne
    exact hno ⟨t, ht, by
      show 0 < t.2.2.1
      by_contra hz
      have : t.2.2.1 = 0 := by omega
      simp [Function.comp, this] at hne⟩

/-- Counterexample to C9 as stated: with a zero-multiplicity `irreps_in1` block the
product `0e × 0e` does lie in `ir_out_list`, yet `_instructions_uvu` still raises
(its generated output irreps `0x0e` has dimension zero). -/
theorem uvu_assert_counterexample :
    instructionsUvu [(0, ⟨0, 1⟩)] [(1, ⟨0, 1⟩)] [⟨0, 1⟩] = none ∧
    (∃ mi1 ∈ ([(0, ⟨0, 1⟩)] : Irreps), ∃ mi2 ∈ ([(1, ⟨0, 1⟩)] : Irreps),
      ∃ ir ∈ Irrep.prod mi1.2 mi2.2, ir ∈ [(⟨0, 1⟩ : Irrep)]) := by decide

/-- C9 (amended): `_instructions_uvu` raises exactly when the generated output
irreps have dimension zero, equivalently when no positive-multiplicity block of
`irreps_in1` produces with a block of `irreps_in2` an irrep lying in `ir_out_list`;
whenever it returns normally, the returned `irreps_out` is non-empty with positive
dimension. -/
theorem uvu_assert_iff (I1 I2 : Irreps) (outs : List Irrep) :
    (instructionsUvu I1 I2 outs = none ↔
      Irreps.dim (rawIrrepsOut I1 I2 outs) = 0) ∧
    (instructionsUvu I1 I2 outs = none ↔
      ¬∃ mi1 ∈ I1, ∃ mi2 ∈ I2, ∃ ir ∈ Irrep.prod mi1.2 mi2.2,
        ir ∈ outs ∧ 0 < mi1.1) ∧
    (∀ O instrs, instructionsUvu I1 I2 outs = some (O, instrs) →
      O ≠ [] ∧ 0 < Irreps.dim O) := by
  have hnone : instructionsUvu I1 I2 outs = none ↔
      Irreps.dim (rawIrrepsOut I1 I2 outs) = 0 := by
    simp only [instructionsUvu]
    by_cases hd : Irreps.dim (rawIrrepsOut I1 I2 outs) > 0
    · rw [if_pos hd]
      simp
      omega
    · rw [if_neg hd]
      simp
      omega
  refine ⟨hnone, hnone.trans (rawIrrepsOut_dim_zero_iff I1 I2 outs), ?_⟩
  intro O instrs h
  obtain ⟨hO, _, hd⟩ := instructionsUvu_some I1 I2 outs O instrs h
  have hdim : 0 < Irreps.dim O := by
    rw [hO, sortIrreps_dim]
    exact hd
  refine ⟨?_, hdim⟩
  intro hnil
  rw [hnil] at hdim
  simp [Irreps.dim] at hdim

/-- Witness for C9 (amended) at concrete inputs: a succeeding run (non-empty output
of positive dimension) and the equivalence evaluated on the failing zero-multiplicity
input. -/
theorem uvu_assert_iff_witness :
    (instructionsUvu [(2, ⟨1, -1⟩)] [(1, ⟨1, -1⟩)] [⟨0, 1⟩] =
      some ([(2, ⟨0, 1⟩)], [⟨0, 0, 0, "uvu", true⟩]) ∧
      (([(2, ⟨0, 1⟩)] : Irreps) ≠ [] ∧ 0 < Irreps.dim [(2, ⟨0, 1⟩)])) ∧
    (instructionsUvu [(0, ⟨0, 1⟩)] [(1, ⟨0, 1⟩)] [⟨0, 1⟩] = none ↔
      Irreps.dim (rawIrrepsOut [(0, ⟨0, 1⟩)] [(1, ⟨0, 1⟩)] [⟨0, 1⟩]) = 0) :=
  ⟨⟨by decide, (uvu_assert_iff [(2, ⟨1, -1⟩)] [(1, ⟨1, -1⟩)] [⟨0, 1⟩]).2.2
      [(2, ⟨0, 1⟩)] [⟨0, 0, 0, "uvu", true⟩] (by decide)⟩,
    (uvu_assert_iff [(0, ⟨0, 1⟩)] [(1, ⟨0, 1⟩)] [⟨0, 1⟩]).1⟩

/-- Assertion of `Transformer.__init__`: every multiplicity of `irreps_node_input`
must be divisible by `num_heads`. -/
def headsCheck (I : Irreps) (numHeads : Nat) : Bool :=
  I.all (fun mi => mi.1 % numHeads == 0)

/-- Every block of the output irreps of `_instructions_uvu` takes its multiplicity
from some block of `irreps_in1`. -/
theorem instructionsUvu_mul_from_input (I1 I2 : Irreps) (outs : List Irrep)
    (O : Irreps) (instrs : List Instruction)
    (h : instructionsUvu I1 I2 outs = some (O, instrs)) :
    ∀ mi ∈ O, ∃ bIn ∈ I1, mi.1 = bIn.1 := by
  obtain ⟨hO, _, _⟩ := instructionsUvu_some I1 I2 outs O instrs h
  intro mi hmi
  rw [hO] at hmi
  have hraw : mi ∈ rawIrrepsOut I1 I2 outs :=
    (sortIrreps_perm (rawIrrepsOut I1 I2 outs)).mem_iff.mp hmi
  unfold rawIrrepsOut at hraw
  obtain ⟨t, ht, rfl⟩ := List.mem_map.mp hraw
  obtain ⟨bIn, hbIn, hmul⟩ := rawUvuBlocks_mul I1 I2 outs t ht
  exact ⟨bIn, List.getElem?_mem hbIn, hmul⟩

/-- C8: the constructor of `Transformer` raises an `AssertionError` exactly when
some multiplicity of `irreps_node_input` is not divisible by `num_heads`; under the
constructor's precondition, splitting the multiplicity of every value block of
`tp_v.irreps_out` into `num_heads` groups of `mul / num_heads` is exact. -/
theorem transformer_heads_assert (I : Irreps) (H : Nat) :
    (headsCheck I H = false ↔ ∃ mi ∈ I, mi.1 % H ≠ 0) ∧
    (headsCheck I H = true →
      ∀ I2 outs O instrs, instructionsUvu I I2 outs = some (O, instrs) →
        ∀ mi ∈ O, H * (mi.1 / H) = mi.1) := by
  constructor
  · unfold headsCheck
    rw [← Bool.not_eq_true, List.all_eq_true]
    constructor
    · intro hna
      by_contra hno
      push_neg at hno
      exact hna (fun mi hmi => by
        have := hno mi hmi
        simpa using this)
    · rintro ⟨mi, hmi, hne⟩ hall
      have := hall mi hmi
      rw [beq_iff_eq] at this
      exact hne this
  · intro hok I2 outs O instrs h mi hmi
    obtain ⟨bIn, hbIn, hmul⟩ := instructionsUvu_mul_from_input I I2 outs O instrs h mi hmi
    have hdvd : mi.1 % H = 0 := by
      unfold headsCheck at hok
      rw [List.all_eq_true] at hok
      have := hok bIn hbIn
      rw [beq_iff_eq] at this
      rw [hmul]
      exact this
    exact Nat.mul_div_cancel' (Nat.dvd_of_mod_eq_zero hdvd)

/-- Witness for C8 at a concrete input: multiplicities 2 and 4 are divisible by 2
heads, the assertion passes, and the per-head split of the value blocks is exact. -/
theorem transformer_heads_assert_witness :
    (headsCheck [(2, ⟨0, 1⟩), (4, ⟨1, 1⟩)] 2 = true ∧
      instructionsUvu [(2, ⟨0, 1⟩), (4, ⟨1, 1⟩)] [(1, ⟨0, 1⟩)] [⟨0, 1⟩, ⟨1, 1⟩] =
        some ([(2, ⟨0, 1⟩), (4, ⟨1, 1⟩)],
          [⟨0, 0, 0, "uvu", true⟩, ⟨1, 0, 1, "uvu", true⟩])) ∧
    ∀ mi ∈ ([(2, ⟨0, 1⟩), (4, ⟨1, 1⟩)] : Irreps), 2 * (mi.1 / 2) = mi.1 :=
  ⟨⟨by decide, by decide⟩,
    (transformer_heads_assert [(2, ⟨0, 1⟩), (4, ⟨1, 1⟩)] 2).2 (by decide)
      [(1, ⟨0, 1⟩)] [⟨0, 1⟩, ⟨1, 1⟩] [(2, ⟨0, 1⟩), (4, ⟨1, 1⟩)]
      [⟨0, 0, 0, "uvu", true⟩, ⟨1, 0, 1, "uvu", true⟩] (by decide)⟩

/-- Modelled from the spec: `index_add(indices, values, n)`, the "scatter/segment
sum: aggregation of per-edge values into per-node accumulators by destination
index" (the e3nn library implementation is not in the snapshot).  Starting from `n`
zero accumulators, each edge's value is added into the accumulator at its
destination index; an out-of-range destination leaves the array unchanged. -/
def index_add {α : Type} [AddCommMonoid α] (dst : List Nat) (v : List α)
    (n : Nat) : List α :=
  (dst.zip v).foldl (fun acc p => acc.set p.1 (acc.getD p.1 0 + p.2))
    (List.replicate n 0)

/-- The scatter fold keeps the accumulator length. -/
theorem scatter_foldl_length {α : Type} [AddCommMonoid α] (ps : List (Nat × α))
    (acc : List α) :
    (ps.foldl (fun acc p => acc.set p.1 (acc.getD p.1 0 + p.2)) acc).length =
      acc.length := by
  induction ps generalizing acc with
  | nil => rfl
  | cons q ps ih => rw [List.foldl_cons, ih, List.length_set]

/-- Number of accumulators returned by `index_add`. -/
theorem index_add_length {α : Type} [AddCommMonoid α] (dst : List Nat) (v : List α)
    (n : Nat) : (index_add dst v n).length = n := by
  unfold index_add
  rw [scatter_foldl_length, List.length_replicate]

/-- Value of the scatter fold at a valid position: the initial value plus the sum of
the pushed values whose destination is that position. -/
theorem scatter_foldl_getD {α : Type} [AddCommMonoid α] (ps : List (Nat × α))
    (acc : List α) (m : Nat) (hm : m < acc.length)
    (hvalid : ∀ p ∈ ps, p.1 < acc.length) :
    (ps.foldl (fun acc p => acc.set p.1 (acc.getD p.1 0 + p.2)) acc).getD m 0 =
      acc.getD m 0 + ((ps.filter (fun p => p.1 == m)).map (fun p => p.2)).sum := by
  induction ps generalizing acc with
  | nil => simp
  | cons q ps ih =>
    rw [List.foldl_cons]
    have hq : q.1 < acc.length := hvalid q (List.mem_cons_self q ps)
    have hlen : (acc.set q.1 (acc.getD q.1 0 + q.2)).length = acc.length :=
      List.length_set acc _ _
    have hrec := ih (acc.set q.1 (acc.getD q.1 0 + q.2)) (by omega)
      (fun p hp => by rw [hlen]; exact hvalid p (List.mem_cons_of_mem q hp))
    by_cases hqm : q.1 = m
    · rw [hrec]
      have hset : (acc.set q.1 (acc.getD q.1 0 + q.2)).getD m 0 =
          acc.getD m 0 + q.2 := by
        subst hqm
        rw [List.getD_eq_getElem?_getD, List.getElem?_set_self hq, Option.getD_some,
          List.getD_eq_getElem?_getD]
      rw [hset]
      have hfil : (q :: ps).filter (fun p => p.1 == m) =
          q :: ps.filter (fun p => p.1 == m) :=
        List.filter_cons_of_pos (by simp [hqm])
      rw [hfil, List.map_cons, List.sum_cons, add_assoc]
    · rw [hrec]
      have hset : (acc.set q.1 (acc.getD q.1 0 + q.2)).getD m 0 = acc.getD m 0 := by
        rw [List.getD_eq_getElem?_getD, List.getElem?_set_ne hqm,
          ← List.getD_eq_getElem?_getD]
      rw [hset]
      have hfil : (q :: ps).filter (fun p => p.1 == m) =
          ps.filter (fun p => p.1 == m) :=
        List.filter_cons_of_neg (by simp [hqm])
      rw [hfil]

/-- At each valid node index, `index_add` holds the sum of the values of the edges
whose destination is that node. -/
theorem index_add_getD {α : Type} [AddCommMonoid α] (dst : List Nat) (v : List α)
    (n m : Nat) (hm : m < n) (hvalid : ∀ d ∈ dst, d < n) :
    (index_add dst v n).getD m 0 =
      (((dst.zip v).filter (fun p => p.1 == m)).map (fun p => p.2)).sum := by
  unfold index_add
  rw [scatter_foldl_getD _ _ _ (by simpa using hm)
    (fun p hp => by
      rw [List.length_replicate]
      exact hvalid p.1 (List.of_mem_zip hp).1)]
  have hz : (List.replicate n (0 : α)).getD m 0 = 0 := by
    rw [List.getD_eq_getElem?_getD, List.getElem?_replicate, if_pos hm]
    rfl
  rw [hz, zero_add]

/-- C4: in `Transformer.__call__`, `node_out = index_add(edge_dst, edge_v,
len(node_f))` holds, at every node `n`, the sum over all edges `e` with
`edge_dst[e] == n` of the attention-scaled value message `edge_v[e]`; a node with no
incoming edge keeps the all-zero accumulator. -/
theorem node_out_segment_sum {α : Type} [AddCommMonoid α] (edge_dst : List Nat)
    (edge_v : List α) (numNodes : Nat) (n : Nat) (hn : n < numNodes)
    (hvalid : ∀ d ∈ edge_dst, d < numNodes) :
    (index_add edge_dst edge_v numNodes).getD n 0 =
      (((edge_dst.zip edge_v).filter (fun p => p.1 == n)).map (fun p => p.2)).sum ∧
    ((∀ d ∈ edge_dst, d ≠ n) → (index_add edge_dst edge_v numNodes).getD n 0 = 0) := by
  have hmain := index_add_getD edge_dst edge_v numNodes n hn hvalid
  refine ⟨hmain, fun hno => ?_⟩
  rw [hmain]
  have hfil : (edge_dst.zip edge_v).filter (fun p => p.1 == n) = [] := by
    rw [List.filter_eq_nil_iff]
    intro p hp
    have := hno p.1 (List.of_mem_zip hp).1
    simpa using this
  rw [hfil]
  rfl

/-- Witness for C4 over rational values: edges `[0, 0]` with values `[1, 2]` into
two nodes; node 0 accumulates the full segment sum and node 1, which has no incoming
edge, stays zero. -/
theorem node_out_segment_sum_witness :
    ((index_add [0, 0] [(1 : ℚ), 2] 2).getD 1 0 =
      ((([0, 0].zip [(1 : ℚ), 2]).filter (fun p => p.1 == 1)).map
        (fun p => p.2)).sum ∧
    ((∀ d ∈ [0, 0], d ≠ 1) → (index_add [0, 0] [(1 : ℚ), 2] 2).getD 1 0 = 0)) ∧
    (∀ d ∈ [0, 0], d < 2) :=
  ⟨node_out_segment_sum [0, 0] [(1 : ℚ), 2] 2 1 (by decide) (by decide), by decide⟩

/-- Attention normalizer of `Transformer.__call__`, line 76: `z =
index_add(edge_dst, exp, len(node_f))`.  The arrays `exp`, `z`, `alpha` of lines
75-78 are `[edge, head]` resp. `[node, head]` arrays and every operation of these
lines acts elementwise on the head axis, so the model fixes one head and works with
the corresponding column of rational entries. -/
def attnZ (edge_dst : List Nat) (exp : List ℚ) (numNodes : Nat) : List ℚ :=
  index_add edge_dst exp numNodes

/-- Zero-guarded normalizer, line 77: `z = jnp.where(z == 0.0, 1.0, z)`. -/
def attnZSafe (edge_dst : List Nat) (exp : List ℚ) (numNodes : Nat) : List ℚ :=
  (attnZ edge_dst exp numNodes).map (fun x => if x = 0 then 1 else x)

/-- Attention coefficients, line 78: `alpha = exp / z[edge_dst]`, whose entry `e` is
`exp[e] / z[edge_dst[e]]`. -/
def attnAlpha (edge_dst : List Nat) (exp : List ℚ) (numNodes : Nat) : List ℚ :=
  (edge_dst.zip exp).map
    (fun p => p.2 / (attnZSafe edge_dst exp numNodes).getD p.1 1)

/-- The `jax.nn.relu` activation. -/
def relu (x : ℚ) : ℚ := max x 0

/-- Zipping a list with a mapped version of its own zip. -/
theorem zip_map_snd {α β γ : Type} (l1 : List α) (l2 : List β) (f : α × β → γ)
    (h : l1.length = l2.length) :
    l1.zip ((l1.zip l2).map f) = (l1.zip l2).map (fun p => (p.1, f p)) := by
  induction l1 generalizing l2 with
  | nil => simp
  | cons a l ih =>
    cases l2 with
    | nil => simp at h
    | cons b l2 =>
      simp only [List.zip_cons_cons, List.map_cons]
      rw [ih l2 (by simpa using h)]

/-- C3: softmax-style normalization.  For every destination node `n` with at least
one incoming edge and nonzero accumulated exponential weight `z[n]` in a given
head, the attention coefficients `alpha[e] = exp[e] / z[edge_dst[e]]` over the
edges with `edge_dst` equal to `n` sum to 1 in that head. -/
theorem attn_softmax_normalized (edge_dst : List Nat) (exp : List ℚ)
    (numNodes : Nat) (n : Nat) (hn : n < numNodes)
    (hlen : edge_dst.length = exp.length)
    (hvalid : ∀ d ∈ edge_dst, d < numNodes)
    (hinc : n ∈ edge_dst)
    (hz : (attnZ edge_dst exp numNodes).getD n 0 ≠ 0) :
    (((edge_dst.zip (attnAlpha edge_dst exp numNodes)).filter
      (fun p => p.1 == n)).map (fun p => p.2)).sum = 1 := by
  have hlt : n < (attnZ edge_dst exp numNodes).length := by
    rw [attnZ, index_add_length]
    exact hn
  have hgetD : (attnZ edge_dst exp numNodes).getD n 0 =
      (attnZ edge_dst exp numNodes)[n] := by
    rw [List.getD_eq_getElem?_getD, List.getElem?_eq_getElem hlt, Option.getD_some]
  have hzval : (attnZ edge_dst exp numNodes)[n] ≠ 0 := by
    rw [← hgetD]
    exact hz
  have hzs : (attnZSafe edge_dst exp numNodes).getD n 1 =
      (attnZ edge_dst exp numNodes)[n] := by
    rw [attnZSafe, List.getD_eq_getElem?_getD, List.getElem?_map,
      List.getElem?_eq_getElem hlt, Option.map_some', Option.getD_some, if_neg hzval]
  have hzip := zip_map_snd edge_dst exp
    (fun p => p.2 / (attnZSafe edge_dst exp numNodes).getD p.1 1) hlen
  rw [attnAlpha, hzip, List.filter_map, List.map_map]
  show (((edge_dst.zip exp).filter (fun p => p.1 == n)).map
    (fun p => p.2 / (attnZSafe edge_dst exp numNodes).getD p.1 1)).sum = 1
  have hcong : ((edge_dst.zip exp).filter (fun p => p.1 == n)).map
      (fun p => p.2 / (attnZSafe edge_dst exp numNodes).getD p.1 1) =
      ((edge_dst.zip exp).filter (fun p => p.1 == n)).map
      (fun p => p.2 * ((attnZ edge_dst exp numNodes)[n])⁻¹) := by
    apply List.map_congr_left
    intro p hp
    have hpn : p.1 = n := by simpa using (List.mem_filter.mp hp).2
    rw [hpn, hzs, div_eq_mul_inv]
  rw [hcong, List.sum_map_mul_right]
  have hsum : (((edge_dst.zip exp).filter (fun p => p.1 == n)).map
      (fun p => p.2)).sum = (attnZ edge_dst exp numNodes)[n] := by
    rw [← hgetD]
    exact (index_add_getD edge_dst exp numNodes n hn hvalid).symm
  rw [hsum, mul_inv_cancel₀ hzval]

/-- Witness for C3: one edge into node 0 with weight 1; its attention coefficient
sums to 1. -/
theorem attn_softmax_normalized_witness :
    (0 < 1 ∧ [0].length = [(1 : ℚ)].length ∧ (∀ d ∈ [0], d < 1) ∧ 0 ∈ [0] ∧
      (attnZ [0] [(1 : ℚ)] 1).getD 0 0 ≠ 0) ∧
    ((([0].zip (attnAlpha [0] [(1 : ℚ)] 1)).filter (fun p => p.1 == 0)).map
      (fun p => p.2)).sum = 1 := by
  have hz : (attnZ [0] [(1 : ℚ)] 1).getD 0 0 ≠ 0 := by
    simp [attnZ, index_add]
  exact ⟨⟨by decide, by decide, by decide, by decide, hz⟩,
    attn_softmax_normalized [0] [(1 : ℚ)] 1 0 (by decide) (by decide) (by decide)
      (by decide) hz⟩

/-- C10: the where-guard makes every attention divisor nonzero, so `exp /
z[edge_dst]` never divides by zero; when every incoming exponential weight of a node
is zero, the attention coefficients of its edges are zero rather than undefined; and
`relu(alpha)` is nonnegative on every edge, so the radicand of `sqrt(relu(alpha))`
is always defined. -/
theorem attn_zero_guard (edge_dst : List Nat) (exp : List ℚ) (numNodes : Nat)
    (hlen : edge_dst.length = exp.length) :
    (∀ x ∈ attnZSafe edge_dst exp numNodes, x ≠ 0) ∧
    (∀ p ∈ edge_dst.zip exp, (attnZSafe edge_dst exp numNodes).getD p.1 1 ≠ 0) ∧
    (∀ n, (∀ p ∈ edge_dst.zip exp, p.1 = n → p.2 = 0) →
      ∀ q ∈ edge_dst.zip (attnAlpha edge_dst exp numNodes), q.1 = n → q.2 = 0) ∧
    (∀ a ∈ attnAlpha edge_dst exp numNodes, 0 ≤ relu a) := by
  have hsafe : ∀ x ∈ attnZSafe edge_dst exp numNodes, x ≠ 0 := by
    intro x hx
    rw [attnZSafe] at hx
    obtain ⟨y, hy, rfl⟩ := List.mem_map.mp hx
    by_cases hy0 : y = 0
    · rw [if_pos hy0]
      exact one_ne_zero
    · rw [if_neg hy0]
      exact hy0
  refine ⟨hsafe, ?_, ?_, ?_⟩
  · intro p hp
    rcases Nat.lt_or_ge p.1 (attnZSafe edge_dst exp numNodes).length with hlt | hge
    · have hmem : (attnZSafe edge_dst exp numNodes).getD p.1 1 ∈
          attnZSafe edge_dst exp numNodes := by
        rw [List.getD_eq_getElem?_getD, List.getElem?_eq_getElem hlt,
          Option.getD_some]
        exact List.getElem_mem hlt
      exact hsafe _ hmem
    · rw [List.getD_eq_getElem?_getD, List.getElem?_eq_none hge]
      exact one_ne_zero
  · intro n hall q hq
    rw [attnAlpha, zip_map_snd edge_dst exp _ hlen] at hq
    obtain ⟨p, hp, rfl⟩ := List.mem_map.mp hq
    intro hqn
    have hp0 : p.2 = 0 := hall p hp hqn
    show p.2 / (attnZSafe edge_dst exp numNodes).getD p.1 1 = 0
    rw [hp0, zero_div]
  · intro a ha
    exact le_max_right a 0

/-- Witness for C10: a single edge whose exponential weight is zero; the zero-guard
replaces the normalizer by one and the attention coefficient of that edge is zero. -/
theorem attn_zero_guard_witness :
    ([0].length = [(0 : ℚ)].length) ∧
    (∀ x ∈ attnZSafe [0] [(0 : ℚ)] 1, x ≠ 0) ∧
    (∀ p ∈ [0].zip [(0 : ℚ)], (attnZSafe [0] [(0 : ℚ)] 1).getD p.1 1 ≠ 0) ∧
    (∀ n, (∀ p ∈ [0].zip [(0 : ℚ)], p.1 = n → p.2 = 0) →
      ∀ q ∈ [0].zip (attnAlpha [0] [(0 : ℚ)] 1), q.1 = n → q.2 = 0) ∧
    (∀ a ∈ attnAlpha [0] [(0 : ℚ)] 1, 0 ≤ relu a) :=
  ⟨by decide, attn_zero_guard [0] [(0 : ℚ)] 1 (by decide)⟩

/-- Head-split reshape and scaling of one value block for one edge (line 82):
`v.reshape(num_heads, mul // num_heads, ir.dim)` with the head `h` slice multiplied
by the broadcast coefficient `c h` (standing for `sqrt(relu(alpha))[h]`), flattened
back by the final `reshape(-1)`.  The block value `v` is the row-major flattening of
the `(mul, ir.dim)` matrix, `g = (mul // num_heads) * ir.dim` is the flat size of
one head slice, and a numpy-style reshape demands the total size match exactly,
failing (`none`) otherwise. -/
def headSplitScale (numHeads : Nat) (c : Nat → ℚ) (g : Nat) (v : List ℚ) :
    Option (List ℚ) :=
  if v.length = numHeads * g then
    some (((List.range numHeads).map
      (fun h => ((v.drop (h * g)).take g).map (fun x => c h * x))).flatten)
  else
    none

/-- Per-edge value packing of lines 82-83: every block of `tp_v.irreps_out` is
head-split, scaled and flattened, then all blocks are concatenated along the
trailing axis (`jnp.concatenate(..., axis=-1)`). -/
def edgeValueConcat (numHeads : Nat) (c : Nat → ℚ) :
    Irreps → List (List ℚ) → Option (List ℚ)
  | [], [] => some []
  | mi :: O, v :: vs =>
    match headSplitScale numHeads c ((mi.1 / numHeads) * mi.2.dim) v,
        edgeValueConcat numHeads c O vs with
    | some w, some ws => some (w ++ ws)
    | _, _ => none
  | _, _ => none

/-- A successful head-split keeps the flat size of the block. -/
theorem headSplitScale_length (numHeads : Nat) (c : Nat → ℚ) (g : Nat)
    (v : List ℚ) (w : List ℚ) (h : headSplitScale numHeads c g v = some w) :
    w.length = v.length := by
  unfold headSplitScale at h
  by_cases hv : v.length = numHeads * g
  · rw [if_pos hv] at h
    have hw := (Option.some.inj h).symm
    subst hw
    rw [List.length_flatten, List.map_map]
    have hcong : (List.range numHeads).map
        (List.length ∘ fun h => ((v.drop (h * g)).take g).map (fun x => c h * x)) =
        (List.range numHeads).map (fun _ => g) := by
      apply List.map_congr_left
      intro a ha
      have halt : a < numHeads := List.mem_range.mp ha
      show (((v.drop (a * g)).take g).map (fun x => c a * x)).length = g
      rw [List.length_map, List.length_take, List.length_drop]
      have hmul : a * g + g ≤ numHeads * g := by
        have := Nat.mul_le_mul_right g halt
        rw [Nat.succ_mul] at this
        exact this
      omega
    rw [hcong, List.map_const', List.length_range, List.sum_replicate, hv]
    rfl
  · rw [if_neg hv] at h
    exact Option.noConfusion h

/-- C5: with every block value of its expected flat size `mul * (2*deg+1)` and
`num_heads` dividing every multiplicity, the head-split reshape of every value
block succeeds and the concatenated per-edge value array has trailing dimension
`Irreps.dim` of `tp_v.irreps_out`: the head-split reshape and re-concatenation
preserve the irreps-tagged-array dimension invariant. -/
theorem edge_value_dim (numHeads : Nat) (c : Nat → ℚ) (O : Irreps)
    (vs : List (List ℚ)) (hlen : O.length = vs.length)
    (hdvd : ∀ mi ∈ O, numHeads ∣ mi.1)
    (hsize : ∀ bv ∈ O.zip vs, bv.2.length = bv.1.1 * bv.1.2.dim) :
    ∃ w, edgeValueConcat numHeads c O vs = some w ∧
      w.length = Irreps.dim O := by
  induction O generalizing vs with
  | nil =>
    cases vs with
    | nil => exact ⟨[], rfl, rfl⟩
    | cons v vs => exact absurd hlen (by simp)
  | cons mi O ih =>
    cases vs with
    | nil => exact absurd hlen (by simp)
    | cons v vs =>
      have hvlen : v.length = mi.1 * mi.2.dim :=
        hsize (mi, v) (by simp [List.zip_cons_cons])
      have hdv : numHeads ∣ mi.1 := hdvd mi (List.mem_cons_self mi O)
      have hexact : v.length = numHeads * ((mi.1 / numHeads) * mi.2.dim) := by
        rw [hvlen, ← Nat.mul_assoc, Nat.mul_div_cancel' hdv]
      have hhead : headSplitScale numHeads c ((mi.1 / numHeads) * mi.2.dim) v =
          some (((List.range numHeads).map
            (fun h => ((v.drop (h * ((mi.1 / numHeads) * mi.2.dim))).take
              ((mi.1 / numHeads) * mi.2.dim)).map (fun x => c h * x))).flatten) := by
        unfold headSplitScale
        rw [if_pos hexact]
      obtain ⟨ws, hws, hwl⟩ := ih vs (by simpa using hlen)
        (fun b hb => hdvd b (List.mem_cons_of_mem mi hb))
        (fun bv hbv => hsize bv (by
          rw [List.zip_cons_cons]
          exact List.mem_cons_of_mem (mi, v) hbv))
      refine ⟨(((List.range numHeads).map
        (fun h => ((v.drop (h * ((mi.1 / numHeads) * mi.2.dim))).take
          ((mi.1 / numHeads) * mi.2.dim)).map (fun x => c h * x))).flatten) ++ ws,
        ?_, ?_⟩
      · show edgeValueConcat numHeads c (mi :: O) (v :: vs) = _
        unfold edgeValueConcat
        rw [hhead, hws]
      · rw [List.length_append, hwl,
          headSplitScale_length numHeads c ((mi.1 / numHeads) * mi.2.dim) v _ hhead,
          hvlen]
        show mi.1 * mi.2.dim + Irreps.dim O = Irreps.dim (mi :: O)
        unfold Irreps.dim
        rw [List.map_cons, List.sum_cons]

/-- Witness for C5: one block `2x0e` split over two heads with unit coefficients;
the packed edge value keeps trailing dimension 2. -/
theorem edge_value_dim_witness :
    (([(2, ⟨0, 1⟩)] : Irreps).length = [[(1 : ℚ), 2]].length ∧
      (∀ mi ∈ ([(2, ⟨0, 1⟩)] : Irreps), 2 ∣ mi.1) ∧
      (∀ bv ∈ ([(2, ⟨0, 1⟩)] : Irreps).zip [[(1 : ℚ), 2]],
        bv.2.length = bv.1.1 * bv.1.2.dim)) ∧
    ∃ w, edgeValueConcat 2 (fun _ => 1) [(2, ⟨0, 1⟩)] [[(1 : ℚ), 2]] = some w ∧
      w.length = Irreps.dim [(2, ⟨0, 1⟩)] :=
  ⟨⟨by decide, by decide, by decide⟩,
    edge_value_dim 2 (fun _ => 1) [(2, ⟨0, 1⟩)] [[(1 : ℚ), 2]]
      (by decide) (by decide) (by decide)⟩

/-- Positions of the eight Tetris shapes of `tetris()` in
`examples/tetris_point_jraph.py`, four unit-cube points each: chiral_shape_1,
chiral_shape_2, square, line, corner, L, T, zigzag. -/
def tetrisPos : List (List (Int × Int × Int)) :=
  [[(0, 0, 0), (0, 0, 1), (1, 0, 0), (1, 1, 0)],
   [(0, 0, 0), (0, 0, 1), (1, 0, 0), (1, -1, 0)],
   [(0, 0, 0), (1, 0, 0), (0, 1, 0), (1, 1, 0)],
   [(0, 0, 0), (0, 0, 1), (0, 0, 2), (0, 0, 3)],
   [(0, 0, 0), (0, 0, 1), (0, 1, 0), (1, 0, 0)],
   [(0, 0, 0), (0, 0, 1), (0, 0, 2), (0, 1, 0)],
   [(0, 0, 0), (0, 0, 1), (0, 0, 2), (0, 1, 1)],
   [(0, 0, 0), (1, 0, 0), (1, 1, 0), (2, 1, 0)]]

/-- Labels of `tetris()` in `tetris_point_jraph.py`: one-hot over the seven achiral
classes plus an odd-scalar first component distinguishing the two chiral shapes. -/
def tetrisLabels : List (List ℚ) :=
  [[1, 1, 0, 0, 0, 0, 0, 0],
   [-1, 1, 0, 0, 0, 0, 0, 0],
   [0, 0, 1, 0, 0, 0, 0, 0],
   [0, 0, 0, 1, 0, 0, 0, 0],
   [0, 0, 0, 0, 1, 0, 0, 0],
   [0, 0, 0, 0, 0, 1, 0, 0],
   [0, 0, 0, 0, 0, 0, 1, 0],
   [0, 0, 0, 0, 0, 0, 0, 1]]

/-- Positions of the eight Tetris shapes of `tetris()` in
`examples/tetris_voxel.py` (the same eight shapes). -/
def tetrisVoxelPos : List (List (Int × Int × Int)) :=
  [[(0, 0, 0), (0, 0, 1), (1, 0, 0), (1, 1, 0)],
   [(0, 0, 0), (0, 0, 1), (1, 0, 0), (1, -1, 0)],
   [(0, 0, 0), (1, 0, 0), (0, 1, 0), (1, 1, 0)],
   [(0, 0, 0), (0, 0, 1), (0, 0, 2), (0, 0, 3)],
   [(0, 0, 0), (0, 0, 1), (0, 1, 0), (1, 0, 0)],
   [(0, 0, 0), (0, 0, 1), (0, 0, 2), (0, 1, 0)],
   [(0, 0, 0), (0, 0, 1), (0, 0, 2), (0, 1, 1)],
   [(0, 0, 0), (1, 0, 0), (1, 1, 0), (2, 1, 0)]]

/-- Labels of `tetris()` in `tetris_voxel.py`: signed one-hot with an odd first
component for the chiral pair. -/
def tetrisVoxelLabels : List (List ℚ) :=
  [[1, 1, -1, -1, -1, -1, -1, -1],
   [-1, 1, -1, -1, -1, -1, -1, -1],
   [0, -1, 1, -1, -1, -1, -1, -1],
   [0, -1, -1, 1, -1, -1, -1, -1],
   [0, -1, -1, -1, 1, -1, -1, -1],
   [0, -1, -1, -1, -1, 1, -1, -1],
   [0, -1, -1, -1, -1, -1, 1, -1],
   [0, -1, -1, -1, -1, -1, -1, 1]]

/-- Voxelization loop of `tetris()` in `tetris_voxel.py`: starting from a zero
grid, each position `(x, y, z)` of a shape sets cell `(4+x, 4+y, 4+z)` to 1. -/
def voxelGrid (shape : List (Int × Int × Int)) : Int × Int × Int → ℚ :=
  shape.foldl (fun g p => fun q =>
    if q = (4 + p.1, 4 + p.2.1, 4 + p.2.2) then 1 else g q) (fun _ => 0)

/-- Cell coordinates of the 9×9×9 voxel grid. -/
def gridCells : List (Int × Int × Int) :=
  (List.range 9).flatMap (fun a => (List.range 9).flatMap (fun b =>
    (List.range 9).map (fun c => ((a : Int), (b : Int), (c : Int)))))

set_option maxRecDepth 4000 in
/-- C7: both Tetris dataset constructors produce exactly 8 shapes of exactly 4
occupied positions each; the voxel variant sets exactly four cells of each 9×9×9
grid to 1 and all other cells to 0; and in both datasets the two chiral shapes are
labeled identically except for the first (odd-scalar) component, which is `+1` for
chiral_shape_1 and `-1` for chiral_shape_2. -/
theorem tetris_datasets :
    (tetrisPos.length = 8 ∧ ∀ s ∈ tetrisPos, s.length = 4) ∧
    (tetrisVoxelPos.length = 8 ∧ ∀ s ∈ tetrisVoxelPos, s.length = 4) ∧
    (∀ s ∈ tetrisVoxelPos,
      gridCells.countP (fun q => decide (voxelGrid s q = 1)) = 4 ∧
      ∀ q ∈ gridCells, voxelGrid s q = 1 ∨ voxelGrid s q = 0) ∧
    ((tetrisLabels.getD 0 [])[0]? = some (1 : ℚ) ∧
      (tetrisLabels.getD 1 [])[0]? = some (-1 : ℚ) ∧
      (tetrisLabels.getD 0 []).tail = (tetrisLabels.getD 1 []).tail) ∧
    ((tetrisVoxelLabels.getD 0 [])[0]? = some (1 : ℚ) ∧
      (tetrisVoxelLabels.getD 1 [])[0]? = some (-1 : ℚ) ∧
      (tetrisVoxelLabels.getD 0 []).tail = (tetrisVoxelLabels.getD 1 []).tail) :=
  ⟨by decide, by decide, by decide, by decide, by decide⟩

/-- Pointwise addition of two rows of an irreps-tagged array. -/
def vecAdd (a b : List ℚ) : List ℚ := List.zipWith (fun x y => x + y) a b

/-- Modelled from the spec: `e3nn.scatter_sum(pred, nel=graphs.n_node)`, the
"scatter/segment sum" pooling of node rows into per-graph rows: output row `i` is
the vector sum of the `nel[i]` consecutive input rows of segment `i`, starting from
a zero row of the common width `w`. -/
def scatter_sum (w : Nat) (rows : List (List ℚ)) : List Nat → List (List ℚ)
  | [] => []
  | k :: rest =>
    ((rows.take k).foldl vecAdd (List.replicate w 0)) ::
      scatter_sum w (rows.drop k) rest

/-- Pooling produces one row per segment length, i.e. per graph. -/
theorem scatter_sum_length (w : Nat) (rows : List (List ℚ)) (nel : List Nat) :
    (scatter_sum w rows nel).length = nel.length := by
  induction nel generalizing rows with
  | nil => rfl
  | cons k rest ih => simp [scatter_sum, ih]

/-- Folding row additions over same-width rows keeps the accumulator width. -/
theorem foldl_vecAdd_length (rs : List (List ℚ)) (a : List ℚ)
    (hw : ∀ r ∈ rs, r.length = a.length) :
    (rs.foldl vecAdd a).length = a.length := by
  induction rs generalizing a with
  | nil => rfl
  | cons r rs ih =>
    rw [List.foldl_cons]
    have h1 : (vecAdd a r).length = a.length := by
      unfold vecAdd
      rw [List.length_zipWith, hw r (List.mem_cons_self r rs), Nat.min_self]
    calc (rs.foldl vecAdd (vecAdd a r)).length
        = (vecAdd a r).length :=
          ih (vecAdd a r) (fun x hx => by
            rw [h1]
            exact hw x (List.mem_cons_of_mem r hx))
      _ = a.length := h1

/-- Pooling same-width rows produces rows of that width. -/
theorem scatter_sum_width (w : Nat) (rows : List (List ℚ)) (nel : List Nat)
    (hw : ∀ r ∈ rows, r.length = w) :
    ∀ r ∈ scatter_sum w rows nel, r.length = w := by
  induction nel generalizing rows with
  | nil =>
    intro r hr
    exact absurd hr (by simp [scatter_sum])
  | cons k rest ih =>
    intro r hr
    rw [scatter_sum] at hr
    rcases List.mem_cons.mp hr with rfl | hr
    · have := foldl_vecAdd_length (rows.take k) (List.replicate w 0)
        (fun x hx => by
          rw [List.length_replicate]
          exact hw x (List.mem_of_mem_take hx))
      rw [this, List.length_replicate]
    · exact ih (rows.drop k) (fun x hx => hw x (List.mem_of_mem_drop hx)) r hr

/-- Modelled from the spec: irreps tag of the point-cloud model's prediction.  The
model's final layer is `Layer("0o + 7x0e", 1.5)`, whose last operation is an e3nn
`Linear` onto the target irreps, and `scatter_sum` pooling keeps the tag, so the
prediction is tagged `0o + 7x0e = [(1, 0o), (7, 0e)]`. -/
def predIrreps : Irreps := [(1, ⟨0, -1⟩), (7, ⟨0, 1⟩)]

/-- Node counts of the batched Tetris graphs: each of the eight graphs carries
`n_node = [4]` and `jraph.batch` concatenates them. -/
def tetrisNNode : List Nat := tetrisPos.map (fun s => s.length)

/-- C6: in `loss_pred`, after `scatter_sum` pooling over the batched Tetris graphs,
the prediction is tagged `0o + 7x0e` and has shape `(num_graphs, 8)`, where
`8 = 1*1 + 7*1` is the sum over blocks of `mul * (2*deg+1)`; both assertions of
`loss_pred` hold. -/
theorem loss_pred_assertions (rows : List (List ℚ))
    (hrows : rows.length = tetrisNNode.sum)
    (hw : ∀ r ∈ rows, r.length = Irreps.dim predIrreps) :
    predIrreps = [(1, ⟨0, -1⟩), (7, ⟨0, 1⟩)] ∧
    Irreps.dim predIrreps = 8 ∧ 1 * 1 + 7 * 1 = 8 ∧
    (scatter_sum (Irreps.dim predIrreps) rows tetrisNNode).length =
      tetrisNNode.length ∧
    tetrisNNode.length = 8 ∧
    ∀ r ∈ scatter_sum (Irreps.dim predIrreps) rows tetrisNNode, r.length = 8 := by
  refine ⟨rfl, by decide, by decide, scatter_sum_length _ _ _, by decide, ?_⟩
  intro r hr
  have := scatter_sum_width (Irreps.dim predIrreps) rows tetrisNNode hw r hr
  rwa [show Irreps.dim predIrreps = 8 from by decide] at this

/-- Witness for C6: the 32 node rows of the Tetris batch (8 graphs × 4 nodes), here
all-zero rows of width 8, pool to 8 rows of width 8. -/
theorem loss_pred_assertions_witness :
    ((List.replicate 32 (List.replicate 8 (0 : ℚ))).length = tetrisNNode.sum ∧
      (∀ r ∈ List.replicate 32 (List.replicate 8 (0 : ℚ)),
        r.length = Irreps.dim predIrreps)) ∧
    ((scatter_sum (Irreps.dim predIrreps)
        (List.replicate 32 (List.replicate 8 (0 : ℚ))) tetrisNNode).length =
      tetrisNNode.length ∧
    tetrisNNode.length = 8 ∧
    ∀ r ∈ scatter_sum (Irreps.dim predIrreps)
        (List.replicate 32 (List.replicate 8 (0 : ℚ))) tetrisNNode,
      r.length = 8) := by
  have h := loss_pred_assertions (List.replicate 32 (List.replicate 8 (0 : ℚ)))
    (by decide) (by decide)
  exact ⟨⟨by decide, by decide⟩, h.2.2.2.1, h.2.2.2.2.1, h.2.2.2.2.2⟩
